import Mathlib

/-!
Verification of the thread-pool / HTTP-server repository
(`src/.history/src/lib_20240703212635.rs`, `src/.history/src/main_20240703214044.rs`).

The development has three layers:

1. A structural model of the Rust `ThreadPool` value: the `workers` vector
   and the `sender : Option<mpsc::Sender<Job>>` field, together with the
   pure effect of `ThreadPool::new`, `ThreadPool::execute` and the
   `Drop for ThreadPool` implementation.  Panics are modelled as `none`.
2. A small-step interleaving semantics (`Step`) of the running pool:
   an unbounded FIFO queue (the `mpsc` channel with its single producer),
   a sender-open flag, per-worker states, and logs of submitted and
   executed jobs.  Jobs are identified by natural numbers.
3. A pure model of `handle_connection` from `main.rs`: request-line
   dispatch, file lookup and response formatting.
-/

namespace PoolModel

/-- A job handle.  The Rust `Job = Box<dyn FnOnce() + Send>` is opaque to the
pool; the pool only moves it around, so a natural-number identity suffices. -/
abbrev Job := Nat

/-- Structural state of a Rust `Worker`: its `id: usize` and its
`thread: Option<JoinHandle<()>>`.  The join handle carries no data relevant
to the pool structure, so it is modelled by `Unit`. -/
structure Worker where
  id : Nat
  thread : Option Unit
deriving DecidableEq, Repr

/-- `Worker::new(id, receiver)` spawns the worker thread and stores the join
handle; structurally it returns `Worker { id, thread: Some(handle) }`.
The shared receiver does not appear in the worker's structural state. -/
def Worker.new (id : Nat) : Worker :=
  { id := id, thread := some () }

/-- Structural state of a Rust `ThreadPool`: the `workers: Vec<Worker>` and
`sender: Option<mpsc::Sender<Job>>` (`Unit` models the sender handle). -/
structure ThreadPool where
  workers : List Worker
  sender : Option Unit
deriving DecidableEq, Repr

/-- `ThreadPool::new(size)`: `assert!(size > 0)` (panic, modelled as `none`,
when `size = 0`), then create the channel, spawn workers with ids
`0, 1, ..., size-1` in order, and return the pool holding the sender. -/
def ThreadPool.new (size : Nat) : Option ThreadPool :=
  if size > 0 then
    some { workers := (List.range size).map Worker.new, sender := some () }
  else
    none

/-- `ThreadPool::execute(f)`: `self.sender.as_ref().unwrap().send(job).unwrap()`.
If the sender has been taken (`None`), the first `unwrap` panics (`none`).
Otherwise the job is appended to the channel's FIFO backlog `q` and the pool
value itself is untouched (`execute` takes `&self`). -/
def ThreadPool.execute (p : ThreadPool) (q : List Job) (job : Job) :
    Option (ThreadPool × List Job) :=
  match p.sender with
  | some _ => some (p, q ++ [job])
  | none => none

/-- Observable actions of `Drop for ThreadPool`, in the order performed. -/
inductive DropEvent where
  | closeSender
  | joinWorker (id : Nat)
deriving DecidableEq, Repr

/-- The per-worker part of `Drop for ThreadPool`'s loop body:
`if let Some(thread) = worker.thread.take() { thread.join().unwrap(); }`.
Returns the worker with the handle freed and the join events emitted. -/
def joinWorkers : List Worker → List Worker × List DropEvent
  | [] => ([], [])
  | w :: rest =>
    let tail := joinWorkers rest
    match w.thread with
    | some _ => ({ w with thread := none } :: tail.1,
                 DropEvent.joinWorker w.id :: tail.2)
    | none => (w :: tail.1, tail.2)

/-- `Drop for ThreadPool`: first `drop(self.sender.take())` (closing the
producer side of the channel), then join every worker in vector order.
Returns the final structural state and the ordered list of actions. -/
def ThreadPool.dropPool (p : ThreadPool) : ThreadPool × List DropEvent :=
  let closed : ThreadPool := { p with sender := none }
  let joined := joinWorkers closed.workers
  ({ closed with workers := joined.1 }, DropEvent.closeSender :: joined.2)

/-- Joining the freshly spawned workers `Worker::new 0 .. Worker::new (n-1)`
frees every handle and emits one join event per worker, in vector order. -/
lemma joinWorkers_map_new (l : List Nat) :
    joinWorkers (l.map Worker.new)
      = (l.map (fun i => { id := i, thread := none }),
         l.map DropEvent.joinWorker) := by
  induction l with
  | nil => rfl
  | cons i rest ih => simp [joinWorkers, Worker.new, ih]

end PoolModel

namespace PoolSem

/-- Runtime state of one worker thread spawned by `Worker::new`:
`idle` — inside (or about to enter) the blocking `recv()`;
`busy j` — `recv()` returned `Ok(job)` and the worker is running `job()`;
`exited` — `recv()` returned `Err(_)` and the loop was left via `break`. -/
inductive WorkerState where
  | idle
  | busy (job : Nat)
  | exited
deriving DecidableEq, Repr

/-- Interleaving state of a running pool: the FIFO backlog of the `mpsc`
channel, whether the (single, pool-owned) sender is still alive, the state
of each worker thread, and logs of the jobs submitted and the jobs whose
execution has completed, each in order of occurrence. -/
structure PoolState where
  queue : List Nat
  senderOpen : Bool
  workers : List WorkerState
  submitted : List Nat
  executed : List Nat
deriving DecidableEq, Repr

/-- Initial state produced by `ThreadPool::new(n)`: empty channel, live
sender, `n` workers all blocked in `recv()`. -/
def init (n : Nat) : PoolState :=
  { queue := [], senderOpen := true, workers := List.replicate n WorkerState.idle,
    submitted := [], executed := [] }

/-- One interleaved step of the pool system, translated from
`ThreadPool::execute`, `Drop for ThreadPool` and the worker loop in
`Worker::new` together with the semantics of `std::sync::mpsc`:

* `submit`: `execute` sends a job through the live sender; the channel is an
  unbounded FIFO, so the job is appended and the call never blocks.
* `close`: `drop(self.sender.take())` in `Drop` closes the producer side.
* `start`: a worker's `receiver.lock().unwrap().recv()` returns `Ok(job)`;
  the mutex guarantees exactly one worker takes the channel's head element.
* `finish`: the worker finishes running `job()` and loops back to `recv()`.
* `exitw`: `recv()` returns `Err(RecvError)` — which `mpsc` produces exactly
  when the channel is empty and the sender has been dropped — and the worker
  breaks out of its loop. -/
inductive Step : PoolState → PoolState → Prop where
  | submit (s : PoolState) (j : Nat) (h : s.senderOpen = true) :
      Step s { s with queue := s.queue ++ [j], submitted := s.submitted ++ [j] }
  | close (s : PoolState) (h : s.senderOpen = true) :
      Step s { s with senderOpen := false }
  | start (s : PoolState) (w j : Nat) (rest : List Nat)
      (hw : s.workers[w]? = some WorkerState.idle)
      (hq : s.queue = j :: rest) :
      Step s { s with queue := rest,
                      workers := s.workers.set w (WorkerState.busy j) }
  | finish (s : PoolState) (w j : Nat)
      (hw : s.workers[w]? = some (WorkerState.busy j)) :
      Step s { s with workers := s.workers.set w WorkerState.idle,
                      executed := s.executed ++ [j] }
  | exitw (s : PoolState) (w : Nat)
      (hw : s.workers[w]? = some WorkerState.idle)
      (hq : s.queue = [])
      (hc : s.senderOpen = false) :
      Step s { s with workers := s.workers.set w WorkerState.exited }

/-- States reachable from a freshly constructed pool of `n` workers. -/
def Reachable (n : Nat) (s : PoolState) : Prop :=
  Relation.ReflTransGen Step (init n) s

/-- The jobs currently being executed, listed in worker order. -/
def busyList (ws : List WorkerState) : List Nat :=
  ws.filterMap fun w =>
    match w with
    | WorkerState.busy j => some j
    | _ => none

/-- An all-idle worker vector executes nothing. -/
lemma busyList_replicate_idle (n : Nat) :
    busyList (List.replicate n WorkerState.idle) = [] := by
  simp [busyList, List.filterMap_replicate]

/-- If every worker has exited, no job is mid-execution. -/
lemma busyList_eq_nil_of_all_exited (ws : List WorkerState)
    (h : ∀ w ∈ ws, w = WorkerState.exited) : busyList ws = [] := by
  induction ws with
  | nil => rfl
  | cons w rest ih =>
    have hw := h w (List.mem_cons_self w rest)
    subst hw
    simp only [busyList, List.filterMap_cons]
    exact ih fun x hx => h x (List.mem_cons_of_mem _ hx)

/-- Setting an idle worker to busy adds its job to the busy multiset. -/
lemma busyList_set_busy (ws : List WorkerState) (w j : Nat)
    (h : ws[w]? = some WorkerState.idle) :
    (busyList (ws.set w (WorkerState.busy j))).Perm (j :: busyList ws) := by
  induction ws generalizing w with
  | nil => simp at h
  | cons x rest ih =>
    cases w with
    | zero =>
      simp only [List.getElem?_cons_zero, Option.some_inj] at h
      subst h
      simp [busyList, List.filterMap_cons]
    | succ w' =>
      simp only [List.getElem?_cons_succ] at h
      have hrec := ih w' h
      cases x with
      | idle =>
        simpa [busyList, List.filterMap_cons] using hrec
      | busy k =>
        simp only [List.set_cons_succ, busyList, List.filterMap_cons] at hrec ⊢
        exact (hrec.cons k).trans (List.Perm.swap j k _)
      | exited =>
        simpa [busyList, List.filterMap_cons] using hrec

/-- Setting a busy worker back to idle removes its job from the busy
multiset. -/
lemma busyList_set_idle (ws : List WorkerState) (w j : Nat)
    (h : ws[w]? = some (WorkerState.busy j)) :
    (busyList ws).Perm (j :: busyList (ws.set w WorkerState.idle)) := by
  induction ws generalizing w with
  | nil => simp at h
  | cons x rest ih =>
    cases w with
    | zero =>
      simp only [List.getElem?_cons_zero, Option.some_inj] at h
      subst h
      simp [busyList, List.filterMap_cons]
    | succ w' =>
      simp only [List.getElem?_cons_succ] at h
      have hrec := ih w' h
      cases x with
      | idle =>
        simpa [busyList, List.filterMap_cons] using hrec
      | busy k =>
        simp only [List.set_cons_succ, busyList, List.filterMap_cons] at hrec ⊢
        exact (hrec.cons k).trans (List.Perm.swap j k _)
      | exited =>
        simpa [busyList, List.filterMap_cons] using hrec

/-- Retiring an idle worker leaves the busy multiset unchanged. -/
lemma busyList_set_exited (ws : List WorkerState) (w : Nat)
    (h : ws[w]? = some WorkerState.idle) :
    busyList (ws.set w WorkerState.exited) = busyList ws := by
  induction ws generalizing w with
  | nil => simp at h
  | cons x rest ih =>
    cases w with
    | zero =>
      simp only [List.getElem?_cons_zero, Option.some_inj] at h
      subst h
      simp [busyList, List.filterMap_cons]
    | succ w' =>
      simp only [List.getElem?_cons_succ] at h
      have hrec := ih w' h
      cases x <;> simp [busyList, List.filterMap_cons, hrec] at hrec ⊢ <;>
        simp [hrec]

/-- The inductive invariant of the pool system.

`perm` is accounting: every submitted job is, at all times, in exactly one
of three places — completed, mid-execution on some worker, or still queued.
`oneWorker` sharpens this to an order-preserving equation when the pool has
a single worker.  `closedOfExited` records that a worker can only have
exited after the sender was dropped, and `emptyOfAllExited` that a
(nonempty) fully exited pool has drained its queue. -/
structure Inv (s : PoolState) : Prop where
  perm : s.submitted.Perm (s.executed ++ busyList s.workers ++ s.queue)
  oneWorker : s.workers.length = 1 →
    s.submitted = s.executed ++ busyList s.workers ++ s.queue
  closedOfExited :
    (∃ w ∈ s.workers, w = WorkerState.exited) → s.senderOpen = false
  emptyOfAllExited : s.workers ≠ [] →
    (∀ w ∈ s.workers, w = WorkerState.exited) → s.queue = []

lemma inv_init (n : Nat) : Inv (init n) := by
  refine ⟨?_, ?_, ?_, ?_⟩
  · simp [init, busyList_replicate_idle]
  · simp [init, busyList_replicate_idle]
  · rintro ⟨w, hw, he⟩
    subst he
    exact absurd (List.eq_of_mem_replicate hw) (by simp)
  · intro _ _
    rfl

lemma inv_step {s s' : PoolState} (hstep : Step s s') (hi : Inv s) : Inv s' := by
  cases hstep with
  | submit j h =>
    refine ⟨?_, ?_, ?_, ?_⟩
    · have h1 := hi.perm.append_right [j]
      have h2 : (s.executed ++ busyList s.workers ++ s.queue) ++ [j]
          = s.executed ++ busyList s.workers ++ (s.queue ++ [j]) := by
        simp [List.append_assoc]
      exact h2 ▸ h1
    · intro hlen
      have hone := hi.oneWorker hlen
      show s.submitted ++ [j]
          = s.executed ++ busyList s.workers ++ (s.queue ++ [j])
      rw [hone]
      simp [List.append_assoc]
    · intro hex
      have hc := hi.closedOfExited hex
      rw [h] at hc
      exact absurd hc (by simp)
    · intro hne hall
      obtain ⟨x, hx⟩ := List.exists_mem_of_ne_nil s.workers hne
      have hc := hi.closedOfExited ⟨x, hx, hall x hx⟩
      rw [h] at hc
      exact absurd hc (by simp)
  | close h =>
    exact ⟨hi.perm, hi.oneWorker, fun _ => rfl, hi.emptyOfAllExited⟩
  | start w j rest hw hq =>
    refine ⟨?_, ?_, ?_, ?_⟩
    · have hb := busyList_set_busy s.workers w j hw
      have h1 := hi.perm
      rw [hq] at h1
      have hmid : (j :: (busyList s.workers ++ rest)).Perm
          (busyList s.workers ++ (j :: rest)) := List.perm_middle.symm
      have hstep1 := List.Perm.append_left s.executed
        ((hb.append_right rest).trans hmid)
      have h2 : ((s.executed ++ busyList (s.workers.set w (WorkerState.busy j)))
            ++ rest).Perm
          ((s.executed ++ busyList s.workers) ++ (j :: rest)) := by
        simpa [List.append_assoc] using hstep1
      exact h1.trans h2.symm
    · intro hlen
      have hlen' : s.workers.length = 1 := by
        simpa [List.length_set] using hlen
      obtain ⟨x, hx⟩ := List.length_eq_one.mp hlen'
      cases w with
      | succ w' =>
        rw [hx] at hw
        simp at hw
      | zero =>
        rw [hx] at hw
        simp only [List.getElem?_cons_zero, Option.some_inj] at hw
        subst hw
        have hone := hi.oneWorker hlen'
        rw [hx, hq] at hone
        show s.submitted
            = s.executed ++ busyList (s.workers.set 0 (WorkerState.busy j)) ++ rest
        rw [hx]
        simp only [busyList, List.set_cons_zero, List.filterMap] at hone ⊢
        simpa using hone
    · rintro ⟨x, hx, he⟩
      subst he
      rcases List.mem_or_eq_of_mem_set hx with hmem | habs
      · exact hi.closedOfExited ⟨_, hmem, rfl⟩
      · exact WorkerState.noConfusion habs
    · intro hne hall
      have hwlt : w < s.workers.length := by
        rcases List.getElem?_eq_some.mp hw with ⟨h', _⟩
        exact h'
      have hbusy : (s.workers.set w (WorkerState.busy j))[w]?
          = some (WorkerState.busy j) := List.getElem?_set_self hwlt
      rcases List.getElem?_eq_some.mp hbusy with ⟨hlt, hh⟩
      have hmem := hh ▸ List.getElem_mem hlt
      exact WorkerState.noConfusion (hall _ hmem)
  | finish w j hw =>
    refine ⟨?_, ?_, ?_, ?_⟩
    · have hb := busyList_set_idle s.workers w j hw
      have h2 : ((s.executed ++ busyList s.workers) ++ s.queue).Perm
          (((s.executed ++ [j]) ++ busyList (s.workers.set w WorkerState.idle))
            ++ s.queue) := by
        refine List.Perm.append_right s.queue ?_
        have := List.Perm.append_left s.executed hb
        simpa [List.append_assoc] using this
      exact hi.perm.trans h2
    · intro hlen
      have hlen' : s.workers.length = 1 := by
        simpa [List.length_set] using hlen
      obtain ⟨x, hx⟩ := List.length_eq_one.mp hlen'
      cases w with
      | succ w' =>
        rw [hx] at hw
        simp at hw
      | zero =>
        rw [hx] at hw
        simp only [List.getElem?_cons_zero, Option.some_inj] at hw
        subst hw
        have hone := hi.oneWorker hlen'
        rw [hx] at hone
        show s.submitted
            = (s.executed ++ [j])
              ++ busyList (s.workers.set 0 WorkerState.idle) ++ s.queue
        rw [hx]
        simp only [busyList, List.set_cons_zero, List.filterMap] at hone ⊢
        simpa [List.append_assoc] using hone
    · rintro ⟨x, hx, he⟩
      subst he
      rcases List.mem_or_eq_of_mem_set hx with hmem | habs
      · exact hi.closedOfExited ⟨_, hmem, rfl⟩
      · exact WorkerState.noConfusion habs
    · intro hne hall
      have hwlt : w < s.workers.length := by
        rcases List.getElem?_eq_some.mp hw with ⟨h', _⟩
        exact h'
      have hidle : (s.workers.set w WorkerState.idle)[w]?
          = some WorkerState.idle := List.getElem?_set_self hwlt
      rcases List.getElem?_eq_some.mp hidle with ⟨hlt, hh⟩
      have hmem := hh ▸ List.getElem_mem hlt
      exact WorkerState.noConfusion (hall _ hmem)
  | exitw w hw hq hc =>
    refine ⟨?_, ?_, ?_, ?_⟩
    · show s.submitted.Perm
        (s.executed ++ busyList (s.workers.set w WorkerState.exited) ++ s.queue)
      rw [busyList_set_exited s.workers w hw]
      exact hi.perm
    · intro hlen
      have hlen' : s.workers.length = 1 := by
        simpa [List.length_set] using hlen
      show s.submitted
          = s.executed ++ busyList (s.workers.set w WorkerState.exited) ++ s.queue
      rw [busyList_set_exited s.workers w hw]
      exact hi.oneWorker hlen'
    · intro _
      exact hc
    · intro _ _
      exact hq

lemma inv_reachable {n : Nat} {s : PoolState}
    (h : Relation.ReflTransGen Step (init n) s) : Inv s := by
  induction h with
  | refl => exact inv_init n
  | tail _ hstep ih => exact inv_step hstep ih

lemma length_step {s s' : PoolState} (h : Step s s') :
    s'.workers.length = s.workers.length := by
  cases h <;> simp [List.length_set]

lemma length_reachable {n : Nat} {s : PoolState}
    (h : Relation.ReflTransGen Step (init n) s) :
    s.workers.length = n := by
  induction h with
  | refl => simp [init]
  | tail _ hstep ih => rw [length_step hstep]; exact ih

/-- In a duplicate-free list split as `e ++ rest`, an element `a` that occurs
strictly before some element `b` of `e` must itself lie in `e`. -/
lemma mem_first_of_split {α : Type} (e rest l1 l2 : List α) (a b : α)
    (hnd : (e ++ rest).Nodup) (hsp : e ++ rest = l1 ++ a :: l2)
    (hb2 : b ∈ l2) (hbe : b ∈ e) : a ∈ e := by
  rcases List.append_eq_append_iff.mp hsp with ⟨t, ht1, ht2⟩ | ⟨t, ht1, ht2⟩
  · exfalso
    have hbrest : b ∈ rest := by
      rw [ht2]
      exact List.mem_append_right t (List.mem_cons_of_mem a hb2)
    exact (List.disjoint_of_nodup_append hnd) hbe hbrest
  · cases t with
    | nil =>
      exfalso
      rw [List.nil_append] at ht2
      have hbrest : b ∈ rest := by
        rw [← ht2]
        exact List.mem_cons_of_mem a hb2
      exact (List.disjoint_of_nodup_append hnd) hbe hbrest
    | cons x t' =>
      rw [List.cons_append] at ht2
      injection ht2 with hax _
      rw [ht1, hax]
      exact List.mem_append_right l1 (List.mem_cons_self x t')

end PoolSem

namespace WorkerLoop

/-- Outcome of one call to `receiver.lock().unwrap().recv()` inside the
worker loop: `ok j` is `Ok(job)`, `err` is `Err(RecvError)` — the closed
signal, produced exactly when the channel is empty and the sender has been
dropped. -/
inductive RecvResult where
  | ok (job : Nat)
  | err
deriving DecidableEq, Repr

/-- The worker loop of `Worker::new`, run over a finite script of `recv()`
outcomes.  Translated from the source: `Ok(job)` executes the job and loops
back to `recv()`; `Err(_)` breaks out of the loop.  Returns the jobs
executed in order, and whether the loop was exited (`break` reached); an
exhausted script means the worker is still in the loop, blocked in
`recv()`. -/
def workerRun : List RecvResult → List Nat × Bool
  | [] => ([], false)
  | RecvResult.ok j :: rest => (j :: (workerRun rest).1, (workerRun rest).2)
  | RecvResult.err :: _ => ([], true)

/-- The jobs carried by the `ok` outcomes of a script, in order. -/
def okJobs (ms : List RecvResult) : List Nat :=
  ms.filterMap fun m =>
    match m with
    | RecvResult.ok j => some j
    | RecvResult.err => none

lemma workerRun_no_err :
    ∀ ms : List RecvResult, RecvResult.err ∉ ms →
      workerRun ms = (okJobs ms, false) := by
  intro ms
  induction ms with
  | nil => intro _; rfl
  | cons x rest ih =>
    intro h
    cases x with
    | err => exact absurd (List.mem_cons_self _ _) h
    | ok j =>
      have hrest : RecvResult.err ∉ rest := fun hc => h (List.mem_cons_of_mem _ hc)
      simp [workerRun, okJobs, List.filterMap_cons, ih hrest]

lemma workerRun_until_err :
    ∀ m1 : List RecvResult, RecvResult.err ∉ m1 → ∀ m2 : List RecvResult,
      workerRun (m1 ++ RecvResult.err :: m2) = (okJobs m1, true) := by
  intro m1
  induction m1 with
  | nil => intro _ m2; rfl
  | cons x rest ih =>
    intro h m2
    cases x with
    | err => exact absurd (List.mem_cons_self _ _) h
    | ok j =>
      have hrest : RecvResult.err ∉ rest := fun hc => h (List.mem_cons_of_mem _ hc)
      simp [workerRun, okJobs, List.filterMap_cons, ih hrest m2]

end WorkerLoop

namespace HttpModel

/-- The triple chosen by `handle_connection`'s `match` on the request line:
status line, content file name, and the delay in seconds performed before
responding (`thread::sleep(Duration::from_secs(5))` in the `/sleep` arm). -/
def statusAndFile (requestLine : String) : String × String × Nat :=
  if requestLine = "GET / HTTP/1.1" then
    ("HTTP/1.1 200 OK", "hello.html", 0)
  else if requestLine = "GET /sleep HTTP/1.1" then
    ("HTTP/1.1 200 OK", "hello.html", 5)
  else
    ("HTTP/1.1 404 NOT FOUND", "404.html", 0)

/-- The response string built by `handle_connection`:
`format!("{status_line}\r\nContent-Length: {length}\r\n\r\n{contents}")`
where `length = contents.len()` is the byte length of the contents. -/
def buildResponse (statusLine contents : String) : String :=
  statusLine ++ "\r\nContent-Length: " ++ toString contents.utf8ByteSize
    ++ "\r\n\r\n" ++ contents

/-- Pure model of `handle_connection`.  `lines` is the sequence of request
lines the connection yields (`buf_reader.lines()` with I/O errors already
excluded); `readFile` models `fs::read_to_string` (`none` = I/O error).
The Rust code does `lines().next().unwrap()`: when the iterator yields
nothing the `unwrap` of `None` panics, modelled as `none`. A missing file
panics likewise. Otherwise the response written to the stream is returned. -/
def handleConnection (lines : List String) (readFile : String → Option String) :
    Option String :=
  match lines.head? with
  | none => none
  | some requestLine =>
    let chosen := statusAndFile requestLine
    match readFile chosen.2.1 with
    | none => none
    | some contents => some (buildResponse chosen.1 contents)

end HttpModel

section Claims

open PoolModel PoolSem HttpModel

/-- C2: for every `n ≥ 1`, `ThreadPool::new(n)` returns a pool containing
exactly `n` workers whose identities are the pairwise distinct ordinals
`0` through `n-1`; `ThreadPool::new(0)` panics on `assert!(size > 0)` and
never returns a usable pool. -/
theorem new_pool_has_n_distinct_workers (n : Nat) (hn : 1 ≤ n) :
    (∃ p, ThreadPool.new n = some p ∧ p.workers.length = n ∧
        p.workers.map Worker.id = List.range n ∧
        (p.workers.map Worker.id).Nodup) ∧
    ThreadPool.new 0 = none := by
  constructor
  · have hpos : 0 < n := hn
    refine ⟨⟨(List.range n).map Worker.new, some ()⟩, ?_, ?_, ?_, ?_⟩
    · simp [ThreadPool.new, hpos]
    · simp
    · simp [List.map_map, Function.comp_def, Worker.new]
    · simp [List.map_map, Function.comp_def, Worker.new, List.nodup_range]
  · simp [ThreadPool.new]

/-- Witness for C2 at `n = 3`. -/
theorem new_pool_has_n_distinct_workers_witness :
    (∃ p, ThreadPool.new 3 = some p ∧ p.workers.length = 3 ∧
        p.workers.map Worker.id = List.range 3 ∧
        (p.workers.map Worker.id).Nodup) ∧
    ThreadPool.new 0 = none :=
  new_pool_has_n_distinct_workers 3 (by decide)

/-- C3: teardown (`Drop for ThreadPool`) first takes and drops the sender —
closing the producer side so no further submission can succeed — and only
then, for every worker in construction order `0, 1, ...`, joins that
worker's thread and frees its handle; the emitted action sequence is the
close action followed by one join per worker, so the drop call returns
only after every worker has been joined. -/
theorem drop_closes_sender_then_joins_in_order (n : Nat) (p : ThreadPool)
    (hp : ThreadPool.new n = some p) :
    (ThreadPool.dropPool p).2
      = DropEvent.closeSender :: (List.range n).map DropEvent.joinWorker ∧
    (ThreadPool.dropPool p).1.sender = none ∧
    ∀ w ∈ (ThreadPool.dropPool p).1.workers, w.thread = none := by
  unfold ThreadPool.new at hp
  split at hp
  · injection hp with hp
    subst hp
    refine ⟨?_, rfl, ?_⟩
    · simp [ThreadPool.dropPool, joinWorkers_map_new]
    · intro w hw
      simp [ThreadPool.dropPool, joinWorkers_map_new] at hw
      obtain ⟨i, _, hi⟩ := hw
      rw [← hi]
  · exact absurd hp (by simp)

/-- Witness for C3 at `n = 2`. -/
theorem drop_closes_sender_then_joins_in_order_witness :
    (ThreadPool.dropPool ⟨[⟨0, some ()⟩, ⟨1, some ()⟩], some ()⟩).2
      = DropEvent.closeSender :: (List.range 2).map DropEvent.joinWorker ∧
    (ThreadPool.dropPool ⟨[⟨0, some ()⟩, ⟨1, some ()⟩], some ()⟩).1.sender
      = none ∧
    ∀ w ∈ (ThreadPool.dropPool
        ⟨[⟨0, some ()⟩, ⟨1, some ()⟩], some ()⟩).1.workers, w.thread = none :=
  drop_closes_sender_then_joins_in_order 2 ⟨[⟨0, some ()⟩, ⟨1, some ()⟩], some ()⟩
    (by decide)

/-- C4: once teardown has begun — `self.sender.take()` has left `None` in
the sender slot — every call to `execute` hits
`self.sender.as_ref().unwrap()` on `None` and panics: the submission fails
fatally instead of silently succeeding, and in particular submitting to a
fully torn-down pool fails. -/
theorem execute_after_teardown_fails (p p' : ThreadPool)
    (q : List PoolModel.Job) (j : PoolModel.Job) (h : p.sender = none) :
    ThreadPool.execute p q j = none ∧
    ThreadPool.execute (ThreadPool.dropPool p').1 q j = none := by
  constructor
  · simp [ThreadPool.execute, h]
  · simp [ThreadPool.execute, ThreadPool.dropPool]

/-- Witness for C4 on a concrete closed pool. -/
theorem execute_after_teardown_fails_witness :
    ThreadPool.execute ⟨[⟨0, some ()⟩], none⟩ [] 5 = none ∧
    ThreadPool.execute (ThreadPool.dropPool ⟨[⟨0, some ()⟩], some ()⟩).1 [] 5
      = none :=
  execute_after_teardown_fails ⟨[⟨0, some ()⟩], none⟩ ⟨[⟨0, some ()⟩], some ()⟩
    [] 5 rfl

/-- C1: exactly-once execution.  In every reachable state of a pool of
`n ≥ 1` workers in which every worker thread has exited, the multiset of
executed jobs equals the multiset of submitted jobs: the execution count
equals the submission count, and no job was duplicated or silently
dropped, for any interleaving of submitters, the close action and the
workers. -/
theorem jobs_executed_exactly_once (n : Nat) (s : PoolState)
    (hr : Reachable n s) (hn : 1 ≤ n)
    (hall : ∀ w ∈ s.workers, w = WorkerState.exited) :
    s.submitted.Perm s.executed ∧
    s.executed.length = s.submitted.length ∧
    ∀ j, s.executed.count j = s.submitted.count j := by
  have hi := inv_reachable hr
  have hlen := length_reachable hr
  have hne : s.workers ≠ [] := by
    intro hcon
    rw [hcon] at hlen
    simp at hlen
    omega
  have hq := hi.emptyOfAllExited hne hall
  have hb := busyList_eq_nil_of_all_exited s.workers hall
  have hp := hi.perm
  rw [hq, hb] at hp
  simp only [List.append_nil] at hp
  exact ⟨hp, hp.symm.length_eq, fun j => ((hp.count_eq j).symm)⟩

/-- A concrete complete run of a one-worker pool: submit job `7`, drop the
sender, let the worker dequeue it, run it and observe closure. -/
lemma reach_example_c1 :
    Reachable 1 (PoolState.mk [] false [WorkerState.exited] [7] [7]) := by
  have t1 : Step (init 1)
      (PoolState.mk [7] true [WorkerState.idle] [7] []) :=
    Step.submit (init 1) 7 rfl
  have t2 : Step (PoolState.mk [7] true [WorkerState.idle] [7] [])
      (PoolState.mk [7] false [WorkerState.idle] [7] []) :=
    Step.close _ rfl
  have t3 : Step (PoolState.mk [7] false [WorkerState.idle] [7] [])
      (PoolState.mk [] false [WorkerState.busy 7] [7] []) :=
    Step.start _ 0 7 [] rfl rfl
  have t4 : Step (PoolState.mk [] false [WorkerState.busy 7] [7] [])
      (PoolState.mk [] false [WorkerState.idle] [7] [7]) :=
    Step.finish _ 0 7 rfl
  have t5 : Step (PoolState.mk [] false [WorkerState.idle] [7] [7])
      (PoolState.mk [] false [WorkerState.exited] [7] [7]) :=
    Step.exitw _ 0 rfl rfl rfl
  exact Relation.ReflTransGen.tail
    (Relation.ReflTransGen.tail
      (Relation.ReflTransGen.tail
        (Relation.ReflTransGen.tail
          (Relation.ReflTransGen.tail Relation.ReflTransGen.refl t1) t2) t3)
        t4) t5

/-- Witness for C1 on the concrete run of `reach_example_c1`. -/
theorem jobs_executed_exactly_once_witness :
    (PoolState.mk [] false [WorkerState.exited] [7] [7]).submitted.Perm
      (PoolState.mk [] false [WorkerState.exited] [7] [7]).executed ∧
    (PoolState.mk [] false [WorkerState.exited] [7] [7]).executed.length
      = (PoolState.mk [] false [WorkerState.exited] [7] [7]).submitted.length ∧
    ∀ j, (PoolState.mk [] false [WorkerState.exited] [7] [7]).executed.count j
      = (PoolState.mk [] false [WorkerState.exited] [7] [7]).submitted.count j :=
  jobs_executed_exactly_once 1 _ reach_example_c1 (by decide) (by decide)

/-- C9: a successful `execute` (the sender is present) leaves the pool's
structural state completely unchanged — the very same workers vector and
sender are returned — and its only effect is appending the job to the
channel backlog. -/
theorem execute_only_enqueues (p : ThreadPool) (q : List PoolModel.Job)
    (j : PoolModel.Job) (h : p.sender.isSome = true) :
    ThreadPool.execute p q j = some (p, q ++ [j]) := by
  obtain ⟨u, hu⟩ := Option.isSome_iff_exists.mp h
  simp [ThreadPool.execute, hu]

/-- Witness for C9 on a concrete pool and backlog. -/
theorem execute_only_enqueues_witness :
    ThreadPool.execute ⟨[⟨0, some ()⟩], some ()⟩ [1] 2
      = some (⟨[⟨0, some ()⟩], some ()⟩, [1, 2]) :=
  execute_only_enqueues ⟨[⟨0, some ()⟩], some ()⟩ [1] 2 rfl

/-- C6: FIFO within a single producer, for a one-worker pool.  In every
reachable state of a pool with exactly one worker, if job `a` was submitted
strictly before job `b` (job identities pairwise distinct) and `b` has
already started — it is being executed or has completed — then `a` has
completed: `b` never starts before `a` completes. -/
theorem single_worker_fifo (s : PoolState) (l1 l2 : List Nat) (a b : Nat)
    (hr : Reachable 1 s)
    (hnd : s.submitted.Nodup)
    (hsp : s.submitted = l1 ++ a :: l2)
    (hb2 : b ∈ l2)
    (hstarted : WorkerState.busy b ∈ s.workers ∨ b ∈ s.executed) :
    a ∈ s.executed := by
  have hi := inv_reachable hr
  have hlen := length_reachable hr
  have hone := hi.oneWorker hlen
  have hanotb : a ≠ b := by
    intro hab
    subst hab
    rw [hsp] at hnd
    exact (List.nodup_cons.mp (List.Nodup.of_append_right hnd)).1 hb2
  rcases hstarted with hbusy | hexec
  · obtain ⟨x, hx⟩ := List.length_eq_one.mp hlen
    have hxb : x = WorkerState.busy b := by
      rw [hx] at hbusy
      exact (by simpa using hbusy : WorkerState.busy b = x).symm
    rw [hx, hxb] at hone
    have hone' : s.submitted = (s.executed ++ [b]) ++ s.queue := by
      simpa [busyList, List.append_assoc] using hone
    have hmem : a ∈ s.executed ++ [b] := by
      apply mem_first_of_split (s.executed ++ [b]) s.queue l1 l2 a b
      · rw [← hone']
        exact hnd
      · rw [← hone']
        exact hsp
      · exact hb2
      · exact List.mem_append_right _ (List.mem_cons_self b [])
    rcases List.mem_append.mp hmem with h | h
    · exact h
    · simp at h
      exact absurd h hanotb
  · have hone' : s.submitted = s.executed ++ (busyList s.workers ++ s.queue) := by
      rw [hone, List.append_assoc]
    apply mem_first_of_split s.executed (busyList s.workers ++ s.queue) l1 l2 a b
    · rw [← hone']
      exact hnd
    · rw [← hone']
      exact hsp
    · exact hb2
    · exact hexec

/-- A concrete run of a one-worker pool: submit jobs `0` then `1`; the
worker dequeues and completes `0`, then dequeues `1` and is executing it. -/
lemma reach_example_c6 :
    Reachable 1 (PoolState.mk [] true [WorkerState.busy 1] [0, 1] [0]) := by
  have t1 : Step (init 1)
      (PoolState.mk [0] true [WorkerState.idle] [0] []) :=
    Step.submit (init 1) 0 rfl
  have t2 : Step (PoolState.mk [0] true [WorkerState.idle] [0] [])
      (PoolState.mk [0, 1] true [WorkerState.idle] [0, 1] []) :=
    Step.submit _ 1 rfl
  have t3 : Step (PoolState.mk [0, 1] true [WorkerState.idle] [0, 1] [])
      (PoolState.mk [1] true [WorkerState.busy 0] [0, 1] []) :=
    Step.start _ 0 0 [1] rfl rfl
  have t4 : Step (PoolState.mk [1] true [WorkerState.busy 0] [0, 1] [])
      (PoolState.mk [1] true [WorkerState.idle] [0, 1] [0]) :=
    Step.finish _ 0 0 rfl
  have t5 : Step (PoolState.mk [1] true [WorkerState.idle] [0, 1] [0])
      (PoolState.mk [] true [WorkerState.busy 1] [0, 1] [0]) :=
    Step.start _ 0 1 [] rfl rfl
  exact Relation.ReflTransGen.tail
    (Relation.ReflTransGen.tail
      (Relation.ReflTransGen.tail
        (Relation.ReflTransGen.tail
          (Relation.ReflTransGen.tail Relation.ReflTransGen.refl t1) t2) t3)
        t4) t5

/-- Witness for C6 on the concrete run of `reach_example_c6`: job `1` has
started, so job `0` has completed. -/
theorem single_worker_fifo_witness :
    0 ∈ (PoolState.mk [] true [WorkerState.busy 1] [0, 1] [0]).executed :=
  single_worker_fifo _ [] [1] 0 1 reach_example_c6 (by decide) rfl (by decide)
    (Or.inl (by decide))

/-- C5: the worker loop obeys the stated state machine.  Over any script of
`recv()` outcomes: if the closed signal never arrives the worker never
leaves the loop and executes every dequeued job, in order, looping back to
`recv()` after each one; and as soon as the closed signal arrives the
worker breaks out, having executed exactly the jobs dequeued before the
signal — it exits for no other reason and executes nothing afterwards. -/
theorem worker_loop_state_machine (m1 m2 ms : List WorkerLoop.RecvResult)
    (h1 : WorkerLoop.RecvResult.err ∉ m1)
    (h2 : WorkerLoop.RecvResult.err ∉ ms) :
    WorkerLoop.workerRun (m1 ++ WorkerLoop.RecvResult.err :: m2)
      = (WorkerLoop.okJobs m1, true) ∧
    WorkerLoop.workerRun ms = (WorkerLoop.okJobs ms, false) :=
  ⟨WorkerLoop.workerRun_until_err m1 h1 m2, WorkerLoop.workerRun_no_err ms h2⟩

/-- Witness for C5 on concrete scripts. -/
theorem worker_loop_state_machine_witness :
    WorkerLoop.workerRun
        ([WorkerLoop.RecvResult.ok 1, WorkerLoop.RecvResult.ok 2]
          ++ WorkerLoop.RecvResult.err :: [WorkerLoop.RecvResult.ok 3])
      = (WorkerLoop.okJobs [WorkerLoop.RecvResult.ok 1,
          WorkerLoop.RecvResult.ok 2], true) ∧
    WorkerLoop.workerRun [WorkerLoop.RecvResult.ok 4]
      = (WorkerLoop.okJobs [WorkerLoop.RecvResult.ok 4], false) :=
  worker_loop_state_machine
    [WorkerLoop.RecvResult.ok 1, WorkerLoop.RecvResult.ok 2]
    [WorkerLoop.RecvResult.ok 3] [WorkerLoop.RecvResult.ok 4]
    (by decide) (by decide)

/-- C7: `handle_connection`'s dispatch is an exact string match on the
request line: `"GET / HTTP/1.1"` gives status 200 with `hello.html` and no
delay; `"GET /sleep HTTP/1.1"` gives, after a 5-second delay, the same 200
status and the same file; every other request line gives status 404 with
the different canned file `404.html`. -/
theorem request_line_dispatch :
    statusAndFile "GET / HTTP/1.1" = ("HTTP/1.1 200 OK", "hello.html", 0) ∧
    statusAndFile "GET /sleep HTTP/1.1"
      = ("HTTP/1.1 200 OK", "hello.html", 5) ∧
    ("404.html" : String) ≠ "hello.html" ∧
    ∀ line : String, line ≠ "GET / HTTP/1.1" → line ≠ "GET /sleep HTTP/1.1" →
      statusAndFile line = ("HTTP/1.1 404 NOT FOUND", "404.html", 0) := by
  refine ⟨rfl, rfl, by decide, ?_⟩
  intro line hl1 hl2
  simp [statusAndFile, hl1, hl2]

/-- Witness for C7 on an unrecognized request line. -/
theorem request_line_dispatch_witness :
    statusAndFile "GET /favicon.ico HTTP/1.1"
      = ("HTTP/1.1 404 NOT FOUND", "404.html", 0) :=
  request_line_dispatch.2.2.2 "GET /favicon.ico HTTP/1.1" (by decide)
    (by decide)

/-- C8: every response `handle_connection` writes back is exactly the
status line, then `"\r\n"`, then a `Content-Length` header whose value is
the byte length of the file contents, then `"\r\n"`, then the blank line
(`"\r\n"`), then the file contents verbatim, in that order. -/
theorem response_layout (lines : List String)
    (readFile : String → Option String) (r : String)
    (h : handleConnection lines readFile = some r) :
    ∃ requestLine contents,
      lines.head? = some requestLine ∧
      readFile (statusAndFile requestLine).2.1 = some contents ∧
      r = (statusAndFile requestLine).1 ++ "\r\n"
          ++ ("Content-Length: " ++ toString contents.utf8ByteSize) ++ "\r\n"
          ++ "\r\n" ++ contents := by
  unfold handleConnection at h
  cases hl : lines.head? with
  | none =>
    rw [hl] at h
    simp at h
  | some requestLine =>
    rw [hl] at h
    have h' : (match readFile (statusAndFile requestLine).2.1 with
        | none => none
        | some contents =>
          some (buildResponse (statusAndFile requestLine).1 contents))
        = some r := h
    cases hf : readFile (statusAndFile requestLine).2.1 with
    | none =>
      rw [hf] at h'
      simp at h'
    | some contents =>
      rw [hf] at h'
      simp only [Option.some_inj] at h'
      rename' h' => h
      refine ⟨requestLine, contents, rfl, hf, ?_⟩
      rw [← h]
      unfold buildResponse
      have e1 : ("\r\nContent-Length: " : String)
          = "\r\n" ++ "Content-Length: " := rfl
      rw [e1]
      have e2 : ("\r\n\r\n" : String) = "\r\n" ++ "\r\n" := rfl
      rw [e2]
      simp only [String.append_assoc]

/-- Witness for C8 on a concrete connection and file store. -/
theorem response_layout_witness :
    ∃ requestLine contents,
      (["GET / HTTP/1.1"] : List String).head? = some requestLine ∧
      (fun f => if f = "hello.html" then some "<p>Hi</p>" else none)
          (statusAndFile requestLine).2.1 = some contents ∧
      "HTTP/1.1 200 OK\r\nContent-Length: 9\r\n\r\n<p>Hi</p>"
        = (statusAndFile requestLine).1 ++ "\r\n"
          ++ ("Content-Length: " ++ toString contents.utf8ByteSize) ++ "\r\n"
          ++ "\r\n" ++ contents :=
  response_layout ["GET / HTTP/1.1"]
    (fun f => if f = "hello.html" then some "<p>Hi</p>" else none)
    "HTTP/1.1 200 OK\r\nContent-Length: 9\r\n\r\n<p>Hi</p>" (by rfl)

/-- C10: a connection that closes without yielding any request line makes
`handle_connection` panic on `lines().next().unwrap()` — `None` is
unwrapped — so no response at all is produced, even though no I/O error
occurred. -/
theorem empty_connection_panics (readFile : String → Option String) :
    handleConnection [] readFile = none := rfl

end Claims
